import Mathlib

/-!
Shallow embedding of `bravo/utilities/redstone.py`: the block/boolean codec
(`truthify_block`, `bbool`), the four circuit kinds (Wire, PlainBlock, Torch,
Lever) with their neighbor-scan rules, the `Asic` graph store with
`connect` / `disconnect` / `update`, and the breadth-first `find_wires`
search.  Python circuit objects are identified by natural-number ids; the
mutable per-object state (status, inputs, outputs) is a total function from
ids to states, and the Asic's coordinate dictionary is an association list.
-/

namespace Redstone

/-- Block slot numbers.  Modelled from the spec: the numeric ids come from the
`bravo.blocks` catalog, which is outside the sources at hand; the spec states
they are used only for identity comparison, so only their distinctness
matters.  The concrete values are the Minecraft-alpha slots. -/
def leverSlot : Nat := 69

/-- Modelled from the spec: slot of the `redstone-wire` block. -/
def wireSlot : Nat := 55

/-- Modelled from the spec: slot of the lit `redstone-torch` block. -/
def torchOnSlot : Nat := 76

/-- Modelled from the spec: slot of the `redstone-torch-off` block. -/
def torchOffSlot : Nat := 75

/-- Embeds Python `metadata | 0x8` on nonnegative ints. -/
def setBit8 (m : Nat) : Nat := m ||| 8

/-- Embeds Python `metadata & ~0x8` on nonnegative ints: clearing bit 3 of a
nonnegative integer is the same as xoring away its bit-3 content. -/
def clearBit8 (m : Nat) : Nat := m ^^^ (m &&& 8)

/-- `truthify_block(truth, block, metadata)` from the source: fold a boolean
back into a block/metadata pair. -/
def truthify_block (truth : Bool) (block metadata : Nat) : Nat × Nat :=
  if block = torchOnSlot ∨ block = torchOffSlot then
    if truth then (torchOnSlot, metadata) else (torchOffSlot, metadata)
  else if block = wireSlot then
    if truth then (block, if metadata ≠ 0 then metadata else 0xf)
    else (block, 0x0)
  else if block = leverSlot then
    if truth then (block, setBit8 metadata) else (block, clearBit8 metadata)
  else (block, metadata)

/-- `bbool(block, metadata)` from the source: boolean reading of a block. -/
def bbool (block metadata : Nat) : Bool :=
  if block = torchOnSlot then true
  else if block = torchOffSlot then false
  else if block = wireSlot then metadata ≠ 0
  else if block = leverSlot then metadata &&& 8 ≠ 0
  else false

/-- Integer voxel coordinate `(x, y, z)`. -/
abbrev Coords := Int × Int × Int

/-- The four circuit classes of the source. -/
inductive Kind : Type
  | wire
  | plain
  | torch
  | lever
deriving DecidableEq, Repr

/-- The `name` class attribute. -/
def kindName : Kind → String
  | .wire => "wire"
  | .plain => "plain"
  | .torch => "torch"
  | .lever => "lever"

/-- The `traceables` class attribute. -/
def traceables : Kind → List String
  | .wire => ["plain"]
  | .plain => ["torch"]
  | .torch => ["wire"]
  | .lever => ["plain"]

/-- Mounting face of an oriented circuit, as decoded by `blocks[].face`. -/
inductive Orient : Type
  | px
  | nx
  | pz
  | nz
  | py
deriving DecidableEq, Repr

/-- Immutable data of a circuit object: its coordinates, class, and (for
torches and levers) orientation; `orient` is unused for wires and plain
blocks. -/
structure CMeta : Type where
  coords : Coords
  kind : Kind
  orient : Orient
deriving DecidableEq, Repr

/-- The four horizontal neighbors of a coordinate, in the iteration order of
`Circuit.iter_inputs` / `Circuit.iter_outputs`. -/
def horiz (c : Coords) : List Coords :=
  [(c.1 - 1, c.2.1, c.2.2), (c.1 + 1, c.2.1, c.2.2),
   (c.1, c.2.1, c.2.2 - 1), (c.1, c.2.1, c.2.2 + 1)]

/-- One step along the opposite of an orientation: the mounting block of a
torch or lever (the `if`/`elif` chain of `Torch.iter_inputs` and
`Lever.iter_outputs`, which yields exactly one coordinate). -/
def mountCoord (c : Coords) (o : Orient) : Coords :=
  match o with
  | .px => (c.1 - 1, c.2.1, c.2.2)
  | .nx => (c.1 + 1, c.2.1, c.2.2)
  | .pz => (c.1, c.2.1, c.2.2 - 1)
  | .nz => (c.1, c.2.1, c.2.2 + 1)
  | .py => (c.1, c.2.1 - 1, c.2.2)

/-- `iter_inputs` per class: wires and plain blocks scan the four horizontal
neighbors, a torch yields only its mounting block, a lever yields nothing. -/
def iter_inputs (m : CMeta) : List Coords :=
  match m.kind with
  | .wire => horiz m.coords
  | .plain => horiz m.coords
  | .torch => [mountCoord m.coords m.orient]
  | .lever => []

/-- `Torch.iter_outputs` from the source, kept exactly as written there: a
cascading `if`/`elif` chain whose conditions are inequalities, so only the
first true branch ever yields.  For orientation `+x` the first condition is
false and the second (`+x ≠ -x`) is true; for every other orientation the
first condition is already true. -/
def torchIterOutputs (c : Coords) (o : Orient) : List Coords :=
  if o ≠ .px then [(c.1 - 1, c.2.1, c.2.2)]
  else if o ≠ .nx then [(c.1 + 1, c.2.1, c.2.2)]
  else if o ≠ .pz then [(c.1, c.2.1, c.2.2 - 1)]
  else if o ≠ .nz then [(c.1, c.2.1, c.2.2 + 1)]
  else if o ≠ .py then [(c.1, c.2.1 - 1, c.2.2)]
  else []

/-- `iter_outputs` per class. -/
def iter_outputs (m : CMeta) : List Coords :=
  match m.kind with
  | .wire => horiz m.coords
  | .plain => horiz m.coords
  | .torch => torchIterOutputs m.coords m.orient
  | .lever => [mountCoord m.coords m.orient]

/-- Mutable state of one circuit object: its boolean `status` and the
identity-based sets `inputs` and `outputs` of neighbor objects. -/
structure CState : Type where
  status : Bool
  inputs : Finset Nat
  outputs : Finset Nat
deriving DecidableEq

/-- The association list backing the Asic's `circuits` dictionary. -/
abbrev AsicMap := List (Coords × Nat)

/-- Dictionary lookup. -/
def alLookup : AsicMap → Coords → Option Nat
  | [], _ => none
  | (k, v) :: rest, c => if c = k then some v else alLookup rest c

/-- Dictionary key deletion (`del circuits[...]`). -/
def alErase : AsicMap → Coords → AsicMap
  | [], _ => []
  | (k, v) :: rest, c => if k = c then alErase rest c else (k, v) :: alErase rest c

/-- Dictionary assignment (`circuits[...] = ...`). -/
def alInsert (l : AsicMap) (c : Coords) (v : Nat) : AsicMap :=
  (c, v) :: alErase l c

/-- The ids stored in the dictionary. -/
def alRange (l : AsicMap) : List Nat := l.map Prod.snd

/-- An Asic together with the heap of circuit-object states: `circuits` is
the coordinate dictionary, `st` gives every object's mutable state. -/
structure World : Type where
  circuits : AsicMap
  st : Nat → CState

/-- Pointwise update of one object's state. -/
def updSt (st : Nat → CState) (k : Nat) (f : CState → CState) : Nat → CState :=
  fun j => if j = k then f (st j) else st j

/-- One iteration of the first `connect` loop, with `i` the connecting
circuit and `c` a coordinate from its input scan:
`self.inputs.add(target); target.outputs.add(self)` guarded by
`self.name in target.traceables`. -/
def connectInputStep (meta : Nat → CMeta) (al : AsicMap) (i : Nat)
    (st : Nat → CState) (c : Coords) : Nat → CState :=
  match alLookup al c with
  | none => st
  | some j =>
    if kindName (meta i).kind ∈ traceables (meta j).kind then
      updSt (updSt st i (fun s => { s with inputs := insert j s.inputs }))
        j (fun s => { s with outputs := insert i s.outputs })
    else st

/-- One iteration of the second `connect` loop:
`target.inputs.add(self); self.outputs.add(target)` guarded by
`target.name in self.traceables`. -/
def connectOutputStep (meta : Nat → CMeta) (al : AsicMap) (i : Nat)
    (st : Nat → CState) (c : Coords) : Nat → CState :=
  match alLookup al c with
  | none => st
  | some j =>
    if kindName (meta j).kind ∈ traceables (meta i).kind then
      updSt (updSt st j (fun s => { s with inputs := insert i s.inputs }))
        i (fun s => { s with outputs := insert j s.outputs })
    else st

/-- The body of `Circuit.connect` after the occupancy check: store the
circuit, then run the two tracing loops over the updated dictionary. -/
def connectBody (meta : Nat → CMeta) (w : World) (i : Nat) : World :=
  let al := alInsert w.circuits (meta i).coords i
  let st1 := (iter_inputs (meta i)).foldl (connectInputStep meta al i) w.st
  let st2 := (iter_outputs (meta i)).foldl (connectOutputStep meta al i) st1
  ⟨al, st2⟩

/-- `connect` raises when the trace is occupied by a different circuit. -/
inductive ConnectErr : Type
  | occupied
deriving DecidableEq, Repr

/-- `Circuit.connect(asic)`: fails if the coordinate already holds another
circuit, otherwise stores the circuit and traces edges to its neighbors. -/
def connect (meta : Nat → CMeta) (w : World) (i : Nat) :
    Except ConnectErr World :=
  match alLookup w.circuits (meta i).coords with
  | some j => if j = i then .ok (connectBody meta w i) else .error .occupied
  | none => .ok (connectBody meta w i)

/-- The two `disconnect` errors. -/
inductive DisconnectErr : Type
  | notAttached
  | mismatch
deriving DecidableEq, Repr

/-- The state transformation of `disconnect`, written pointwise: every
circuit in `inputs` loses `i` from its outputs, every circuit in `outputs`
loses `i` from its inputs, and `i`'s own sets are cleared.  This equals the
source's two `discard` loops followed by the two `clear`s: the loops touch
disjoint fields of each neighbor, and any effect on `i` itself is
superseded by the clears. -/
def disconnectSt (st : Nat → CState) (i : Nat) : Nat → CState :=
  fun j =>
    if j = i then { status := (st i).status, inputs := ∅, outputs := ∅ }
    else
      let s := st j
      let s1 := if j ∈ (st i).inputs then { s with outputs := s.outputs.erase i } else s
      if j ∈ (st i).outputs then { s1 with inputs := s1.inputs.erase i } else s1

/-- `Circuit.disconnect(asic)`: fails with `notAttached` when the
coordinate is absent, with `mismatch` when it holds a different circuit;
otherwise removes all edges touching the circuit and deletes its entry. -/
def disconnect (meta : Nat → CMeta) (w : World) (i : Nat) :
    Except DisconnectErr World :=
  match alLookup w.circuits (meta i).coords with
  | none => .error .notAttached
  | some j =>
    if j = i then
      .ok ⟨alErase w.circuits (meta i).coords, disconnectSt w.st i⟩
    else .error .mismatch

/-- A graph operation: attach or detach one circuit object. -/
inductive AOp : Type
  | att (i : Nat)
  | det (i : Nat)

/-- Run one operation; a raised error leaves the world unchanged (both
`connect` and `disconnect` raise before any mutation). -/
def applyOp (meta : Nat → CMeta) (w : World) : AOp → World
  | .att i => match connect meta w i with
    | .ok w2 => w2
    | .error _ => w
  | .det i => match disconnect meta w i with
    | .ok w2 => w2
    | .error _ => w

/-- Freshly constructed circuit objects have empty edge sets. -/
def pristine (st : Nat → CState) : Prop :=
  ∀ i, (st i).inputs = ∅ ∧ (st i).outputs = ∅

/-- Worlds reachable from an empty Asic by attach/detach sequences. -/
inductive Reach (meta : Nat → CMeta) : World → Prop
  | init (st : Nat → CState) (h : pristine st) : Reach meta ⟨[], st⟩
  | step (w : World) (o : AOp) (h : Reach meta w) : Reach meta (applyOp meta w o)

/-- An id is stored in the Asic. -/
def Stored (w : World) (i : Nat) : Prop := i ∈ alRange w.circuits

instance (w : World) (i : Nat) : Decidable (Stored w i) := by
  unfold Stored; infer_instance


/-- The common shape of one guarded iteration of either `connect` loop:
record the directed edge `a → b` (`b.inputs.add(a); a.outputs.add(b)`). -/
def addEdge (st : Nat → CState) (a b : Nat) : Nat → CState :=
  updSt (updSt st b (fun s => { s with inputs := insert a s.inputs }))
    a (fun s => { s with outputs := insert b s.outputs })

/-- The edge bookkeeping facts maintained on the object states: symmetry of
the `inputs` / `outputs` references, the traceability guard satisfied by
every recorded edge, and adjacency of every recorded edge to one of the two
neighbor scans. -/
def StInv (meta : Nat → CMeta) (st : Nat → CState) : Prop :=
  (∀ a b, a ∈ (st b).inputs ↔ b ∈ (st a).outputs) ∧
  (∀ a b, a ∈ (st b).inputs →
    kindName (meta b).kind ∈ traceables (meta a).kind) ∧
  (∀ a b, a ∈ (st b).inputs →
    (meta a).coords ∈ iter_inputs (meta b) ∨
      (meta b).coords ∈ iter_outputs (meta a))

/-- The full invariant: every dictionary entry stores a circuit under its
own coordinates, plus the edge bookkeeping facts. -/
structure Inv (meta : Nat → CMeta) (w : World) : Prop where
  coords_eq : ∀ c j, alLookup w.circuits c = some j → (meta j).coords = c
  stinv : StInv meta w.st

/-- The boolean operator of each class, applied to the statuses of the
input set.  `any` (Wire, PlainBlock) is total.  `Torch.op` is the unary
`operator.not_`, so the splatted call `self.op(*inputs)` only succeeds with
exactly one input, where negating the single status equals negating the
disjunction; `Lever.op` raises whenever it receives inputs.  `none` models
the raised Python exception. -/
def opOf (k : Kind) (status : Bool) (inputs : Finset Nat)
    (stat : Nat → Bool) : Option Bool :=
  match k with
  | .wire => some (decide (∃ j ∈ inputs, stat j = true))
  | .plain => some (decide (∃ j ∈ inputs, stat j = true))
  | .torch =>
    if inputs.card = 1 then some (!decide (∃ j ∈ inputs, stat j = true))
    else none
  | .lever => if inputs.card = 0 then some status else none

/-- `Circuit.update`: empty inputs return `()` (modelled `∅`) at once;
otherwise the operator is applied to the input statuses, and the outputs
are returned exactly when the status changed.  `none` models the exception
raised by an operator arity violation. -/
def update (meta : Nat → CMeta) (st : Nat → CState) (i : Nat) :
    Option ((Nat → CState) × Finset Nat) :=
  if (st i).inputs = ∅ then some (st, ∅)
  else
    match opOf (meta i).kind (st i).status (st i).inputs
        (fun j => (st j).status) with
    | none => none
    | some new =>
      if (st i).status ≠ new then
        some (updSt st i (fun s => { s with status := new }), (st i).outputs)
      else some (st, ∅)

/-- A concrete heap of circuit objects: object 0 a torch at the origin
mounted `+y` (on the block below), objects 1 and 2 plain blocks at its east
and west horizontal neighbors; further ids are unused plain blocks parked
far away. -/
def meta3 : Nat → CMeta := fun i =>
  match i with
  | 0 => ⟨(0, 0, 0), .torch, .py⟩
  | 1 => ⟨(1, 0, 0), .plain, .py⟩
  | 2 => ⟨(-1, 0, 0), .plain, .py⟩
  | n + 3 => ⟨(0, 100 + n, 0), .plain, .py⟩

/-- Freshly constructed objects: status off, no edges. -/
def st0 : Nat → CState := fun _ => ⟨false, ∅, ∅⟩

/-- The empty Asic over the `st0` heap. -/
def w0 : World := ⟨[], st0⟩

/-- Attach the torch, then the two plain blocks. -/
def w3 : World :=
  applyOp meta3 (applyOp meta3 (applyOp meta3 w0 (.att 0)) (.att 1)) (.att 2)

/-- A heap where every object claims the origin: two distinct objects with
the same coordinates, for exercising the `mismatch` error. -/
def meta4 : Nat → CMeta := fun _ => ⟨(0, 0, 0), .plain, .py⟩

/-- Attach object 0 of `meta4`; object 1 now mismatches at the origin. -/
def w4 : World := applyOp meta4 w0 (.att 0)

/-- A heap state where object 0 has the single input 1 (off) and one
output, for exercising a status-changing `update`. -/
def stW : Nat → CState := fun j =>
  if j = 0 then ⟨false, {1}, {7}⟩ else ⟨false, ∅, ∅⟩

/-- One neighbor inspection of the `find_wires` loop: look the coordinate
up in the dictionary (`continue` when absent) and push the found circuit on
the left of the deque when it is a wire not yet collected. -/
def bfsEnq (meta : Nat → CMeta) (al : AsicMap) (wires : Finset Nat)
    (dacc : List Nat) (c : Coords) : List Nat :=
  match alLookup al c with
  | none => dacc
  | some j =>
    if kindName (meta j).kind = "wire" ∧ j ∉ wires then j :: dacc else dacc

/-- The neighbor scan of one popped wire:
`chain(w.iter_inputs(), w.iter_outputs())`. -/
def bfsNbrs (meta : Nat → CMeta) (w : Nat) : List Coords :=
  iter_inputs (meta w) ++ iter_outputs (meta w)

/-- The ids stored in the dictionary, as a finite set (for the termination
measure of the search loop). -/
def alRangeFinset (al : AsicMap) : Finset Nat := (alRange al).toFinset

/-- First component of the loop measure: the stored-or-queued ids not yet
collected. -/
def bfsM1 (al : AsicMap) (d : List Nat) (wires : Finset Nat) : Nat :=
  ((d.toFinset ∪ alRangeFinset al) \ wires).card

/-- Second component of the loop measure: the queue entries already
collected (every enqueue pushes an uncollected wire, so these can only be
consumed). -/
def bfsM2 (d : List Nat) (wires : Finset Nat) : Nat :=
  d.countP (fun j => decide (j ∈ wires))

/-- One iteration of the `while d:` loop of `find_wires`, as a step
function on the pair (deque, collected set); the identity once the deque
has drained. -/
def bfsStep (meta : Nat → CMeta) (al : AsicMap) (s : List Nat × Finset Nat) :
    List Nat × Finset Nat :=
  if h : s.1 = [] then s
  else
    ((bfsNbrs meta (s.1.getLast h)).foldl (bfsEnq meta al s.2) s.1.dropLast,
      insert (s.1.getLast h) s.2)

/-- Reachability from a seed circuit through the wire BFS's adjacency: a
step goes from a collected circuit to a stored wire at one of its scanned
neighbor coordinates. -/
inductive WireReach (meta : Nat → CMeta) (al : AsicMap) (root : Nat) :
    Nat → Prop
  | refl : WireReach meta al root root
  | step (w y : Nat) (c : Coords) (hw : WireReach meta al root w)
      (hc : c ∈ bfsNbrs meta w) (hl : alLookup al c = some y)
      (hk : kindName (meta y).kind = "wire") : WireReach meta al root y

/-- A heap for the wire-group tests: wires at the origin and at `(1,0,0)`,
a plain block at `(9,9,9)`. -/
def metaW : Nat → CMeta := fun i =>
  match i with
  | 0 => ⟨(0, 0, 0), .wire, .py⟩
  | 1 => ⟨(1, 0, 0), .wire, .py⟩
  | _ => ⟨(9, 9, 9), .plain, .py⟩

/-- The dictionary storing the three `metaW` objects. -/
def alW : AsicMap := [((0, 0, 0), 0), ((1, 0, 0), 1), ((9, 9, 9), 2)]

theorem alLookup_cons (k : Coords) (v : Nat) (rest : AsicMap) (c : Coords) :
    alLookup ((k, v) :: rest) c = if c = k then some v else alLookup rest c := rfl

theorem alErase_cons (k : Coords) (v : Nat) (rest : AsicMap) (c : Coords) :
    alErase ((k, v) :: rest) c =
      if k = c then alErase rest c else (k, v) :: alErase rest c := rfl

theorem alLookup_alErase (l : AsicMap) (c0 c : Coords) :
    alLookup (alErase l c0) c = if c = c0 then none else alLookup l c := by
  induction l with
  | nil => simp [alErase, alLookup]
  | cons kv rest ih =>
    obtain ⟨k, v⟩ := kv
    rw [alErase_cons]
    by_cases hk : k = c0
    · rw [if_pos hk, ih, alLookup_cons]
      by_cases hc : c = c0
      · rw [if_pos hc, if_pos hc]
      · rw [if_neg hc, if_neg hc, if_neg (fun h => hc (h.trans hk))]
    · rw [if_neg hk, alLookup_cons, alLookup_cons, ih]
      by_cases hc : c = k
      · have hcc : ¬c = c0 := fun h => hk ((hc.symm.trans h))
        rw [if_pos hc, if_neg hcc, if_pos hc]
      · rw [if_neg hc, if_neg hc]

theorem alLookup_alInsert (l : AsicMap) (c0 c : Coords) (v : Nat) :
    alLookup (alInsert l c0 v) c = if c = c0 then some v else alLookup l c := by
  unfold alInsert
  rw [alLookup_cons]
  by_cases hc : c = c0
  · rw [if_pos hc, if_pos hc]
  · rw [if_neg hc, if_neg hc, alLookup_alErase, if_neg hc]

theorem foldl_preserve {α σ : Type _} (P : σ → Prop) (f : σ → α → σ)
    (l : List α) (h : ∀ a ∈ l, ∀ s, P s → P (f s a)) :
    ∀ s, P s → P (l.foldl f s) := by
  induction l with
  | nil => intro s hs; simpa using hs
  | cons a rest ih =>
    intro s hs
    simp only [List.foldl_cons]
    exact ih (fun x hx s2 hs2 => h x (List.mem_cons_of_mem a hx) s2 hs2)
      (f s a) (h a (List.mem_cons_self a rest) s hs)

theorem addEdge_inputs_eq (st : Nat → CState) (a b y : Nat) :
    ((addEdge st a b) y).inputs =
      if y = b then insert a (st y).inputs else (st y).inputs := by
  by_cases hyb : y = b
  · subst hyb
    by_cases hba : y = a <;> simp [addEdge, updSt, hba]
  · by_cases hya : y = a
    · have hab : ¬a = b := fun h => hyb (hya.trans h)
      simp [addEdge, updSt, hya, hyb, hab]
    · simp [addEdge, updSt, hya, hyb]

theorem addEdge_outputs_eq (st : Nat → CState) (a b y : Nat) :
    ((addEdge st a b) y).outputs =
      if y = a then insert b (st y).outputs else (st y).outputs := by
  by_cases hya : y = a
  · subst hya
    by_cases hyb : y = b <;> simp [addEdge, updSt, hyb]
  · by_cases hyb : y = b
    · have hba : ¬b = a := fun h => hya (hyb.trans h)
      simp [addEdge, updSt, hya, hyb, hba]
    · simp [addEdge, updSt, hya, hyb]

theorem addEdge_mem_inputs (st : Nat → CState) (a b x y : Nat) :
    x ∈ ((addEdge st a b) y).inputs ↔ x ∈ (st y).inputs ∨ (y = b ∧ x = a) := by
  rw [addEdge_inputs_eq]
  by_cases hyb : y = b <;> simp [hyb, Finset.mem_insert] <;> tauto

theorem addEdge_mem_outputs (st : Nat → CState) (a b x y : Nat) :
    x ∈ ((addEdge st a b) y).outputs ↔ x ∈ (st y).outputs ∨ (y = a ∧ x = b) := by
  rw [addEdge_outputs_eq]
  by_cases hya : y = a <;> simp [hya, Finset.mem_insert] <;> tauto

theorem addEdge_stinv (meta : Nat → CMeta) (st : Nat → CState) (a b : Nat)
    (hst : StInv meta st)
    (hleg : kindName (meta b).kind ∈ traceables (meta a).kind)
    (hnear : (meta a).coords ∈ iter_inputs (meta b) ∨
      (meta b).coords ∈ iter_outputs (meta a)) :
    StInv meta (addEdge st a b) := by
  obtain ⟨hsymm, hlegal, hnear0⟩ := hst
  refine ⟨?_, ?_, ?_⟩
  · intro x y
    rw [addEdge_mem_inputs, addEdge_mem_outputs, hsymm]
    tauto
  · intro x y hxy
    rw [addEdge_mem_inputs] at hxy
    rcases hxy with h | ⟨hy, hx⟩
    · exact hlegal x y h
    · subst hy; subst hx; exact hleg
  · intro x y hxy
    rw [addEdge_mem_inputs] at hxy
    rcases hxy with h | ⟨hy, hx⟩
    · exact hnear0 x y h
    · subst hy; subst hx; exact hnear

theorem connectInputStep_none (meta : Nat → CMeta) (al : AsicMap) (i : Nat)
    (st : Nat → CState) (c : Coords) (hl : alLookup al c = none) :
    connectInputStep meta al i st c = st := by
  unfold connectInputStep
  rw [hl]

theorem connectInputStep_some (meta : Nat → CMeta) (al : AsicMap) (i : Nat)
    (st : Nat → CState) (c : Coords) (j : Nat) (hl : alLookup al c = some j) :
    connectInputStep meta al i st c =
      if kindName (meta i).kind ∈ traceables (meta j).kind then addEdge st j i
      else st := by
  unfold connectInputStep
  rw [hl]
  rfl

theorem connectOutputStep_none (meta : Nat → CMeta) (al : AsicMap) (i : Nat)
    (st : Nat → CState) (c : Coords) (hl : alLookup al c = none) :
    connectOutputStep meta al i st c = st := by
  unfold connectOutputStep
  rw [hl]

theorem connectOutputStep_some (meta : Nat → CMeta) (al : AsicMap) (i : Nat)
    (st : Nat → CState) (c : Coords) (j : Nat) (hl : alLookup al c = some j) :
    connectOutputStep meta al i st c =
      if kindName (meta j).kind ∈ traceables (meta i).kind then addEdge st i j
      else st := by
  unfold connectOutputStep
  rw [hl]
  rfl

theorem connectInputStep_stinv (meta : Nat → CMeta) (al : AsicMap) (i : Nat)
    (hal : ∀ c0 j, alLookup al c0 = some j → (meta j).coords = c0)
    (c : Coords) (hc : c ∈ iter_inputs (meta i)) (st : Nat → CState)
    (hst : StInv meta st) : StInv meta (connectInputStep meta al i st c) := by
  cases hl : alLookup al c with
  | none => rw [connectInputStep_none meta al i st c hl]; exact hst
  | some j =>
    rw [connectInputStep_some meta al i st c j hl]
    by_cases hg : kindName (meta i).kind ∈ traceables (meta j).kind
    · rw [if_pos hg]
      refine addEdge_stinv meta st j i hst hg (Or.inl ?_)
      rw [hal c j hl]
      exact hc
    · rw [if_neg hg]
      exact hst

theorem connectOutputStep_stinv (meta : Nat → CMeta) (al : AsicMap) (i : Nat)
    (hal : ∀ c0 j, alLookup al c0 = some j → (meta j).coords = c0)
    (c : Coords) (hc : c ∈ iter_outputs (meta i)) (st : Nat → CState)
    (hst : StInv meta st) : StInv meta (connectOutputStep meta al i st c) := by
  cases hl : alLookup al c with
  | none => rw [connectOutputStep_none meta al i st c hl]; exact hst
  | some j =>
    rw [connectOutputStep_some meta al i st c j hl]
    by_cases hg : kindName (meta j).kind ∈ traceables (meta i).kind
    · rw [if_pos hg]
      refine addEdge_stinv meta st i j hst hg (Or.inr ?_)
      rw [hal c j hl]
      exact hc
    · rw [if_neg hg]
      exact hst

theorem alInsert_coords (meta : Nat → CMeta) (w : World) (i : Nat)
    (h : Inv meta w) :
    ∀ c0 j, alLookup (alInsert w.circuits (meta i).coords i) c0 = some j →
      (meta j).coords = c0 := by
  intro c0 j hl
  rw [alLookup_alInsert] at hl
  by_cases hc : c0 = (meta i).coords
  · rw [if_pos hc] at hl
    cases hl
    exact hc.symm
  · rw [if_neg hc] at hl
    exact h.coords_eq c0 j hl

theorem connectBody_inv (meta : Nat → CMeta) (w : World) (i : Nat)
    (h : Inv meta w) : Inv meta (connectBody meta w i) := by
  have hal := alInsert_coords meta w i h
  refine ⟨hal, ?_⟩
  have h1 : StInv meta ((iter_inputs (meta i)).foldl
      (connectInputStep meta (alInsert w.circuits (meta i).coords i) i) w.st) :=
    foldl_preserve (StInv meta) _ _
      (fun c hc st hst => connectInputStep_stinv meta _ i hal c hc st hst)
      w.st h.stinv
  exact foldl_preserve (StInv meta) _ _
    (fun c hc st hst => connectOutputStep_stinv meta _ i hal c hc st hst)
    _ h1

theorem disconnectSt_mem_inputs (st : Nat → CState) (i x y : Nat) :
    x ∈ ((disconnectSt st i) y).inputs ↔
      y ≠ i ∧ x ∈ (st y).inputs ∧ (y ∈ (st i).outputs → x ≠ i) := by
  unfold disconnectSt
  by_cases hy : y = i
  · simp [hy]
  · by_cases h1 : y ∈ (st i).inputs <;> by_cases h2 : y ∈ (st i).outputs <;>
      simp [hy, h1, h2, Finset.mem_erase] <;> tauto

theorem disconnectSt_mem_outputs (st : Nat → CState) (i x y : Nat) :
    x ∈ ((disconnectSt st i) y).outputs ↔
      y ≠ i ∧ x ∈ (st y).outputs ∧ (y ∈ (st i).inputs → x ≠ i) := by
  unfold disconnectSt
  by_cases hy : y = i
  · simp [hy]
  · by_cases h1 : y ∈ (st i).inputs <;> by_cases h2 : y ∈ (st i).outputs <;>
      simp [hy, h1, h2, Finset.mem_erase] <;> tauto

theorem disconnectSt_stinv (meta : Nat → CMeta) (st : Nat → CState) (i : Nat)
    (hst : StInv meta st) : StInv meta (disconnectSt st i) := by
  obtain ⟨hsymm, hlegal, hnear⟩ := hst
  refine ⟨?_, ?_, ?_⟩
  · intro x y
    rw [disconnectSt_mem_inputs, disconnectSt_mem_outputs]
    constructor
    · rintro ⟨hyi, hxy, hg⟩
      have hyx : y ∈ (st x).outputs := (hsymm x y).1 hxy
      refine ⟨?_, hyx, fun _ => hyi⟩
      intro hx
      subst hx
      exact hg ((hsymm x y).1 hxy) rfl
    · rintro ⟨hxi, hyx, hg⟩
      have hxy : x ∈ (st y).inputs := (hsymm x y).2 hyx
      refine ⟨?_, hxy, fun _ => hxi⟩
      intro hy
      subst hy
      exact hg ((hsymm x y).2 hyx) rfl
  · intro x y hxy
    rw [disconnectSt_mem_inputs] at hxy
    exact hlegal x y hxy.2.1
  · intro x y hxy
    rw [disconnectSt_mem_inputs] at hxy
    exact hnear x y hxy.2.1

theorem connect_lookup_none (meta : Nat → CMeta) (w : World) (i : Nat)
    (hl : alLookup w.circuits (meta i).coords = none) :
    connect meta w i = .ok (connectBody meta w i) := by
  unfold connect
  rw [hl]

theorem connect_lookup_some (meta : Nat → CMeta) (w : World) (i j : Nat)
    (hl : alLookup w.circuits (meta i).coords = some j) :
    connect meta w i =
      if j = i then .ok (connectBody meta w i) else .error .occupied := by
  unfold connect
  rw [hl]

theorem disconnect_lookup_none (meta : Nat → CMeta) (w : World) (i : Nat)
    (hl : alLookup w.circuits (meta i).coords = none) :
    disconnect meta w i = .error .notAttached := by
  unfold disconnect
  rw [hl]

theorem disconnect_lookup_some (meta : Nat → CMeta) (w : World) (i j : Nat)
    (hl : alLookup w.circuits (meta i).coords = some j) :
    disconnect meta w i =
      if j = i then
        .ok ⟨alErase w.circuits (meta i).coords, disconnectSt w.st i⟩
      else .error .mismatch := by
  unfold disconnect
  rw [hl]

theorem connect_cases (meta : Nat → CMeta) (w : World) (i : Nat) :
    connect meta w i = .ok (connectBody meta w i) ∨
      connect meta w i = .error .occupied := by
  cases hl : alLookup w.circuits (meta i).coords with
  | none => exact Or.inl (connect_lookup_none meta w i hl)
  | some j =>
    rw [connect_lookup_some meta w i j hl]
    by_cases hj : j = i
    · rw [if_pos hj]; exact Or.inl rfl
    · rw [if_neg hj]; exact Or.inr rfl

theorem disconnect_cases (meta : Nat → CMeta) (w : World) (i : Nat) :
    disconnect meta w i =
        .ok ⟨alErase w.circuits (meta i).coords, disconnectSt w.st i⟩ ∨
      disconnect meta w i = .error .notAttached ∨
      disconnect meta w i = .error .mismatch := by
  cases hl : alLookup w.circuits (meta i).coords with
  | none => exact Or.inr (Or.inl (disconnect_lookup_none meta w i hl))
  | some j =>
    rw [disconnect_lookup_some meta w i j hl]
    by_cases hj : j = i
    · rw [if_pos hj]; exact Or.inl rfl
    · rw [if_neg hj]; exact Or.inr (Or.inr rfl)

theorem applyOp_att (meta : Nat → CMeta) (w : World) (i : Nat) :
    applyOp meta w (.att i) =
      match connect meta w i with
      | .ok w2 => w2
      | .error _ => w := rfl

theorem applyOp_det (meta : Nat → CMeta) (w : World) (i : Nat) :
    applyOp meta w (.det i) =
      match disconnect meta w i with
      | .ok w2 => w2
      | .error _ => w := rfl

theorem disconnect_world_inv (meta : Nat → CMeta) (w : World) (i : Nat)
    (h : Inv meta w) :
    Inv meta ⟨alErase w.circuits (meta i).coords, disconnectSt w.st i⟩ := by
  refine ⟨?_, disconnectSt_stinv meta w.st i h.stinv⟩
  intro c0 j2 hl2
  simp only at hl2
  rw [alLookup_alErase] at hl2
  by_cases hc : c0 = (meta i).coords
  · rw [if_pos hc] at hl2
    cases hl2
  · rw [if_neg hc] at hl2
    exact h.coords_eq c0 j2 hl2

theorem applyOp_inv (meta : Nat → CMeta) (w : World) (o : AOp)
    (h : Inv meta w) : Inv meta (applyOp meta w o) := by
  cases o with
  | att i =>
    rw [applyOp_att]
    rcases connect_cases meta w i with hc | hc <;> rw [hc]
    · exact connectBody_inv meta w i h
    · exact h
  | det i =>
    rw [applyOp_det]
    rcases disconnect_cases meta w i with hc | hc | hc <;> rw [hc]
    · exact disconnect_world_inv meta w i h
    · exact h
    · exact h

theorem reach_inv (meta : Nat → CMeta) (w : World) (h : Reach meta w) :
    Inv meta w := by
  induction h with
  | init st hst =>
    refine ⟨?_, ?_, ?_, ?_⟩
    · intro c j hl
      simp [alLookup] at hl
    · intro a b
      simp [(hst b).1, (hst a).2]
    · intro a b hab
      rw [(hst b).1] at hab
      simp at hab
    · intro a b hab
      rw [(hst b).1] at hab
      simp at hab
  | step w o _ ih => exact applyOp_inv meta w o ih

theorem reach_w3 : Reach meta3 w3 :=
  .step _ _ (.step _ _ (.step _ _ (.init st0 (fun _ => ⟨rfl, rfl⟩))))

theorem iter_inputs_torch (m : CMeta) (hk : m.kind = .torch) :
    iter_inputs m = [mountCoord m.coords m.orient] := by
  unfold iter_inputs
  rw [hk]

theorem iter_outputs_plain (m : CMeta) (hk : m.kind = .plain) :
    iter_outputs m = horiz m.coords := by
  unfold iter_outputs
  rw [hk]

theorem horiz_symm {c1 c2 : Coords} (h : c1 ∈ horiz c2) : c2 ∈ horiz c1 := by
  obtain ⟨x, y, z⟩ := c1
  obtain ⟨a, b, d⟩ := c2
  simp [horiz, Prod.ext_iff] at h ⊢
  omega

theorem update_empty (meta : Nat → CMeta) (st : Nat → CState) (i : Nat)
    (h : (st i).inputs = ∅) : update meta st i = some (st, ∅) := by
  unfold update
  rw [if_pos h]

theorem update_op_none (meta : Nat → CMeta) (st : Nat → CState) (i : Nat)
    (hne : (st i).inputs ≠ ∅)
    (hop : opOf (meta i).kind (st i).status (st i).inputs
      (fun j => (st j).status) = none) : update meta st i = none := by
  unfold update
  rw [if_neg hne, hop]

theorem update_op_some (meta : Nat → CMeta) (st : Nat → CState) (i : Nat)
    (new : Bool) (hne : (st i).inputs ≠ ∅)
    (hop : opOf (meta i).kind (st i).status (st i).inputs
      (fun j => (st j).status) = some new) :
    update meta st i =
      if (st i).status ≠ new then
        some (updSt st i (fun s => { s with status := new }), (st i).outputs)
      else some (st, ∅) := by
  unfold update
  rw [if_neg hne, hop]

theorem land8_ne_iff (m : Nat) : m &&& 8 ≠ 0 ↔ m.testBit 3 = true := by
  have h8 : (8 : Nat) = 2 ^ 3 := by norm_num
  rw [h8, Nat.and_two_pow]
  cases h : m.testBit 3 <;> simp [h]

theorem setBit8_testBit (m i : Nat) :
    (setBit8 m).testBit i = (m.testBit i || decide (i = 3)) := by
  unfold setBit8
  rw [Nat.testBit_or]
  have h8 : (8 : Nat) = 2 ^ 3 := by norm_num
  rw [h8, Nat.testBit_two_pow]
  by_cases hi : 3 = i
  · subst hi; simp
  · have hi2 : ¬i = 3 := fun h2 => hi h2.symm
    simp [hi, hi2]

theorem clearBit8_testBit (m i : Nat) :
    (clearBit8 m).testBit i = (m.testBit i && !decide (i = 3)) := by
  unfold clearBit8
  rw [Nat.testBit_xor, Nat.testBit_and]
  have h8 : (8 : Nat) = 2 ^ 3 := by norm_num
  rw [h8, Nat.testBit_two_pow]
  by_cases hi : 3 = i
  · subst hi
    cases h : m.testBit 3 <;> simp [h]
  · have hi2 : ¬i = 3 := fun h2 => hi h2.symm
    cases h : m.testBit i <;> simp [h, hi, hi2]

theorem setBit8_of_bit_set (m : Nat) (h : m.testBit 3 = true) :
    setBit8 m = m := by
  refine Nat.eq_of_testBit_eq (fun i => ?_)
  rw [setBit8_testBit]
  by_cases hi : i = 3
  · subst hi; simp [h]
  · simp [hi]

theorem clearBit8_of_bit_clear (m : Nat) (h : m &&& 8 = 0) :
    clearBit8 m = m := by
  unfold clearBit8
  rw [h, Nat.xor_zero]

/-- C1: at the failing input — a torch at the origin mounted `+y` — the
source's `Torch.iter_outputs` yields only the single coordinate
`(-1, 0, 0)`; in particular the horizontal neighbor `(1, 0, 0)`, which the
claim says must be yielded (it is not the mounting block `(0, -1, 0)`), is
not yielded. -/
theorem C1_torch_iter_outputs_yields_single :
    iter_outputs ⟨(0, 0, 0), .torch, .py⟩ = [((-1 : Int), (0 : Int), (0 : Int))] ∧
      ((1 : Int), (0 : Int), (0 : Int)) ∈ horiz ((0 : Int), (0 : Int), (0 : Int)) ∧
      ((1 : Int), (0 : Int), (0 : Int)) ∉ iter_outputs ⟨(0, 0, 0), .torch, .py⟩ := by
  decide

/-- C2 counterexample: in the reachable world `w3`, the plain block 1 is an
input of the torch 0 (and 0 an output of 1), yet `"plain"` does not appear
in the torch's traceables — so the claimed direction of the edge-legality
check is false. -/
theorem C2_counterexample :
    ¬ (∀ (w : World), Reach meta3 w → ∀ a b, a ∈ (w.st b).inputs →
        b ∈ (w.st a).outputs →
        kindName (meta3 a).kind ∈ traceables (meta3 b).kind) := by
  intro h
  have h2 := h w3 reach_w3 1 0 (by decide) (by decide)
  revert h2
  decide

/-- C2 (amended): after any sequence of attaches and detaches, every edge
`a → b` (that is, `a ∈ b.inputs` and `b ∈ a.outputs`) satisfies
`b.name ∈ a.traceables` — the converse direction of the claim: `connect`
adds a neighbor as an input of the new circuit only when the new circuit's
name appears in that neighbor's traceables. -/
theorem C2_edge_legality (meta : Nat → CMeta) (w : World) (hw : Reach meta w)
    (a b : Nat) (hin : a ∈ (w.st b).inputs) (hout : b ∈ (w.st a).outputs) :
    kindName (meta b).kind ∈ traceables (meta a).kind :=
  (reach_inv meta w hw).stinv.2.1 a b hin

/-- C2 witness: the amended legality fact evaluated on the concrete
reachable world `w3` at the edge `1 → 0`. -/
theorem C2_witness :
    kindName (meta3 0).kind ∈ traceables (meta3 1).kind :=
  C2_edge_legality meta3 w3 reach_w3 1 0 (by decide) (by decide)

/-- C3: after any sequence of attaches and detaches from the empty Asic,
for every stored pair of circuits the `inputs` / `outputs` references are
symmetric. -/
theorem C3_edge_symmetry (meta : Nat → CMeta) (w : World) (hw : Reach meta w)
    (a b : Nat) (ha : Stored w a) (hb : Stored w b) :
    a ∈ (w.st b).inputs ↔ b ∈ (w.st a).outputs :=
  (reach_inv meta w hw).stinv.1 a b

/-- C3 witness: edge symmetry evaluated on the concrete reachable world
`w3` at the stored pair `(1, 0)`. -/
theorem C3_witness :
    Stored w3 1 ∧ Stored w3 0 ∧
      (1 ∈ (w3.st 0).inputs ↔ 0 ∈ (w3.st 1).outputs) :=
  ⟨by decide, by decide, C3_edge_symmetry meta3 w3 reach_w3 1 0 (by decide) (by decide)⟩

/-- C4 counterexample: in the reachable world `w3` the stored torch 0 has
two inputs (the two adjacent plain blocks), neither of which sits at its
mounting coordinate — so a torch does not have at most one input. -/
theorem C4_counterexample :
    ¬ (∀ (w : World), Reach meta3 w → ∀ i, Stored w i →
        (meta3 i).kind = .torch → (w.st i).inputs.card ≤ 1) := by
  intro h
  have h2 := h w3 reach_w3 0 (by decide) rfl
  revert h2
  decide

/-- C4 (amended): a torch's `inputs` set can hold several circuits; every
input of a torch is a plain-kind circuit located either at the torch's
mounting coordinate or at one of its four horizontal neighbors. -/
theorem C4_torch_inputs (meta : Nat → CMeta) (w : World) (hw : Reach meta w)
    (b : Nat) (hb : (meta b).kind = .torch) (a : Nat)
    (ha : a ∈ (w.st b).inputs) :
    (meta a).kind = .plain ∧
      ((meta a).coords = mountCoord (meta b).coords (meta b).orient ∨
        (meta a).coords ∈ horiz (meta b).coords) := by
  have hinv := reach_inv meta w hw
  have hleg := hinv.stinv.2.1 a b ha
  have hnear := hinv.stinv.2.2 a b ha
  rw [hb] at hleg
  have hka : (meta a).kind = .plain := by
    cases hk : (meta a).kind
    · rw [hk] at hleg; exact absurd hleg (by decide)
    · rfl
    · rw [hk] at hleg; exact absurd hleg (by decide)
    · rw [hk] at hleg; exact absurd hleg (by decide)
  refine ⟨hka, ?_⟩
  rcases hnear with h | h
  · left
    rw [iter_inputs_torch (meta b) hb] at h
    simpa using h
  · right
    rw [iter_outputs_plain (meta a) hka] at h
    exact horiz_symm h

/-- C4 witness: the amended fact evaluated on the concrete reachable world
`w3` at the torch input `1 ∈ (w3.st 0).inputs`. -/
theorem C4_witness :
    (meta3 1).kind = .plain ∧
      ((meta3 1).coords = mountCoord (meta3 0).coords (meta3 0).orient ∨
        (meta3 1).coords ∈ horiz (meta3 0).coords) :=
  C4_torch_inputs meta3 w3 reach_w3 0 rfl 1 (by decide)

/-- C6 counterexample: in the reachable world `w3` the torch 0 has two
inputs, so `update` raises (the unary `not_` receives two arguments)
instead of returning a set as the claim states. -/
theorem C6_counterexample :
    Reach meta3 w3 ∧ Stored w3 0 ∧ (w3.st 0).inputs ≠ ∅ ∧
      update meta3 w3.st 0 = none :=
  ⟨reach_w3, by decide, by decide,
    update_op_none meta3 w3.st 0 (by decide) (by decide)⟩

/-- C6 (amended): `update` returns `∅` leaving the state untouched when
`inputs = ∅`; otherwise, whenever the circuit's operator is defined on the
input statuses, it returns `∅` if the computed value equals the status and
otherwise sets the status to the new value (changing nothing else) and
returns the outputs; when the operator is undefined (a torch with other
than one input, a lever with any input) `update` raises. -/
theorem C6_update_behavior (meta : Nat → CMeta) (st : Nat → CState) (i : Nat) :
    ((st i).inputs = ∅ → update meta st i = some (st, ∅)) ∧
    (∀ new, (st i).inputs ≠ ∅ →
      opOf (meta i).kind (st i).status (st i).inputs
        (fun j => (st j).status) = some new →
      (new = (st i).status → update meta st i = some (st, ∅)) ∧
      (new ≠ (st i).status →
        update meta st i =
          some (updSt st i (fun s => { s with status := new }),
            (st i).outputs) ∧
        (updSt st i (fun s => { s with status := new }) i).status = new ∧
        (updSt st i (fun s => { s with status := new }) i).inputs =
          (st i).inputs ∧
        (updSt st i (fun s => { s with status := new }) i).outputs =
          (st i).outputs ∧
        ∀ j, j ≠ i → updSt st i (fun s => { s with status := new }) j = st j)) ∧
    ((st i).inputs ≠ ∅ →
      opOf (meta i).kind (st i).status (st i).inputs
        (fun j => (st j).status) = none →
      update meta st i = none) := by
  refine ⟨fun h => update_empty meta st i h, ?_,
    fun hne hop => update_op_none meta st i hne hop⟩
  intro new hne hop
  have heq := update_op_some meta st i new hne hop
  constructor
  · intro hnewold
    rw [heq, if_neg (fun hcon => hcon hnewold.symm)]
  · intro hnewold
    refine ⟨?_, ?_, ?_, ?_, ?_⟩
    · rw [heq, if_pos (fun hcon => hnewold hcon.symm)]
    · show (updSt st i (fun s => { s with status := new }) i).status = new
      unfold updSt
      rw [if_pos rfl]
    · show (updSt st i (fun s => { s with status := new }) i).inputs = (st i).inputs
      unfold updSt
      rw [if_pos rfl]
    · show (updSt st i (fun s => { s with status := new }) i).outputs = (st i).outputs
      unfold updSt
      rw [if_pos rfl]
    · intro j hj
      unfold updSt
      rw [if_neg hj]

/-- C6 witness: the three branches evaluated concretely — a circuit with no
inputs, a torch with one off input (status flips to true and the outputs
are returned), and the torch of `w3` with two inputs (raises). -/
theorem C6_witness :
    ((st0 3).inputs = ∅ ∧ update meta3 st0 3 = some (st0, ∅)) ∧
    (update meta3 stW 0 =
      some (updSt stW 0 (fun s => { s with status := true }),
        (stW 0).outputs)) ∧
    ((w3.st 0).inputs ≠ ∅ ∧ update meta3 w3.st 0 = none) := by
  refine ⟨⟨rfl, (C6_update_behavior meta3 st0 3).1 rfl⟩, ?_, ⟨by decide, ?_⟩⟩
  · exact (((C6_update_behavior meta3 stW 0).2.1 true (by decide)
      (by decide)).2 (by decide)).1
  · exact (C6_update_behavior meta3 w3.st 0).2.2 (by decide) (by decide)

/-- C7: the codec round-trips — for each of the four handled block kinds
and every metadata, `truthify_block (bbool block m) block m = (block, m)`. -/
theorem C7_codec_roundtrip (m : Nat) :
    truthify_block (bbool leverSlot m) leverSlot m = (leverSlot, m) ∧
    truthify_block (bbool wireSlot m) wireSlot m = (wireSlot, m) ∧
    truthify_block (bbool torchOnSlot m) torchOnSlot m = (torchOnSlot, m) ∧
    truthify_block (bbool torchOffSlot m) torchOffSlot m = (torchOffSlot, m) := by
  refine ⟨?_, ?_, rfl, rfl⟩
  · unfold truthify_block bbool
    simp only [leverSlot, wireSlot, torchOnSlot, torchOffSlot]
    norm_num
    by_cases h : m &&& 8 = 0
    · simp [h, clearBit8_of_bit_clear m h]
    · simp [h, setBit8_of_bit_set m ((land8_ne_iff m).1 h)]
  · unfold truthify_block bbool
    simp only [leverSlot, wireSlot, torchOnSlot, torchOffSlot]
    norm_num
    by_cases h : m = 0
    · simp [h]
    · simp [h]

/-- C8: full case behavior of `truthify_block` — torch slots map to the
on/off slot by the truth with metadata preserved; a true wire keeps nonzero
metadata and turns zero metadata into `0xF`, a false wire zeroes it; a
lever gets bit `0x8` set or cleared with all other bits preserved; every
other block passes through unchanged (and the function is total). -/
theorem C8_truthify_cases :
    (∀ m : Nat,
      truthify_block true torchOnSlot m = (torchOnSlot, m) ∧
      truthify_block true torchOffSlot m = (torchOnSlot, m) ∧
      truthify_block false torchOnSlot m = (torchOffSlot, m) ∧
      truthify_block false torchOffSlot m = (torchOffSlot, m)) ∧
    (∀ m : Nat, m ≠ 0 → truthify_block true wireSlot m = (wireSlot, m)) ∧
    truthify_block true wireSlot 0 = (wireSlot, 0xf) ∧
    (∀ m : Nat, truthify_block false wireSlot m = (wireSlot, 0)) ∧
    (∀ m : Nat,
      (truthify_block true leverSlot m).1 = leverSlot ∧
      (truthify_block true leverSlot m).2.testBit 3 = true ∧
      ∀ i, i ≠ 3 → (truthify_block true leverSlot m).2.testBit i = m.testBit i) ∧
    (∀ m : Nat,
      (truthify_block false leverSlot m).1 = leverSlot ∧
      (truthify_block false leverSlot m).2.testBit 3 = false ∧
      ∀ i, i ≠ 3 → (truthify_block false leverSlot m).2.testBit i = m.testBit i) ∧
    (∀ (b m : Nat) (t : Bool), b ≠ leverSlot → b ≠ wireSlot →
      b ≠ torchOnSlot → b ≠ torchOffSlot → truthify_block t b m = (b, m)) := by
  refine ⟨fun m => ⟨rfl, rfl, rfl, rfl⟩, ?_, rfl, ?_, ?_, ?_, ?_⟩
  · intro m hm
    unfold truthify_block
    simp only [wireSlot, torchOnSlot, torchOffSlot]
    norm_num
    simp [hm]
  · intro m
    unfold truthify_block
    simp only [wireSlot, torchOnSlot, torchOffSlot]
    norm_num
  · intro m
    have hval : truthify_block true leverSlot m = (leverSlot, setBit8 m) := by
      unfold truthify_block
      simp only [leverSlot, wireSlot, torchOnSlot, torchOffSlot]
      norm_num
    rw [hval]
    refine ⟨rfl, ?_, fun i hi => ?_⟩
    · rw [setBit8_testBit]
      simp
    · rw [setBit8_testBit]
      simp [hi]
  · intro m
    have hval : truthify_block false leverSlot m = (leverSlot, clearBit8 m) := by
      unfold truthify_block
      simp only [leverSlot, wireSlot, torchOnSlot, torchOffSlot]
      norm_num
    rw [hval]
    refine ⟨rfl, ?_, fun i hi => ?_⟩
    · rw [clearBit8_testBit]
      simp
    · rw [clearBit8_testBit]
      simp [hi]
  · intro b m t h1 h2 h3 h4
    unfold truthify_block
    rw [if_neg, if_neg h2, if_neg h1]
    rintro (hc | hc)
    · exact h3 hc
    · exact h4 hc

/-- C8 witness: the guarded conjuncts evaluated at concrete inputs. -/
theorem C8_witness :
    (5 : Nat) ≠ 0 ∧ truthify_block true wireSlot 5 = (wireSlot, 5) ∧
    (2 : Nat) ≠ 3 ∧
    (truthify_block true leverSlot 6).2.testBit 2 = (6 : Nat).testBit 2 ∧
    (truthify_block false leverSlot 13).2.testBit 2 = (13 : Nat).testBit 2 ∧
    (10 : Nat) ≠ leverSlot ∧ (10 : Nat) ≠ wireSlot ∧
    (10 : Nat) ≠ torchOnSlot ∧ (10 : Nat) ≠ torchOffSlot ∧
    truthify_block true 10 4 = (10, 4) := by
  refine ⟨by decide, C8_truthify_cases.2.1 5 (by decide), by decide, ?_, ?_,
    by decide, by decide, by decide, by decide,
    C8_truthify_cases.2.2.2.2.2.2 10 4 true (by decide) (by decide)
      (by decide) (by decide)⟩
  · exact (C8_truthify_cases.2.2.2.2.1 6).2.2 2 (by decide)
  · exact (C8_truthify_cases.2.2.2.2.2.1 13).2.2 2 (by decide)

/-- C9: `disconnect` fails with `notAttached` when the coordinate is absent
and with `mismatch` when it holds a different circuit, in both cases
leaving the world unchanged; on success the circuit's own edge sets are
cleared, its map entry is erased, and no stored circuit still references it
in `inputs` or `outputs`. -/
theorem C9_disconnect_behavior (meta : Nat → CMeta) (w : World) (i : Nat) :
    (alLookup w.circuits (meta i).coords = none →
      disconnect meta w i = .error .notAttached ∧ applyOp meta w (.det i) = w) ∧
    (∀ j, alLookup w.circuits (meta i).coords = some j → j ≠ i →
      disconnect meta w i = .error .mismatch ∧ applyOp meta w (.det i) = w) ∧
    (Reach meta w → alLookup w.circuits (meta i).coords = some i →
      ∃ w2, disconnect meta w i = .ok w2 ∧
        (w2.st i).inputs = ∅ ∧ (w2.st i).outputs = ∅ ∧
        alLookup w2.circuits (meta i).coords = none ∧
        ∀ j, Stored w2 j → i ∉ (w2.st j).inputs ∧ i ∉ (w2.st j).outputs) := by
  refine ⟨?_, ?_, ?_⟩
  · intro hl
    have hd := disconnect_lookup_none meta w i hl
    refine ⟨hd, ?_⟩
    rw [applyOp_det, hd]
  · intro j hl hj
    have hd := disconnect_lookup_some meta w i j hl
    rw [if_neg hj] at hd
    refine ⟨hd, ?_⟩
    rw [applyOp_det, hd]
  · intro hw hl
    have hd := disconnect_lookup_some meta w i i hl
    rw [if_pos rfl] at hd
    refine ⟨_, hd, ?_, ?_, ?_, ?_⟩
    · show (disconnectSt w.st i i).inputs = ∅
      unfold disconnectSt
      rw [if_pos rfl]
    · show (disconnectSt w.st i i).outputs = ∅
      unfold disconnectSt
      rw [if_pos rfl]
    · show alLookup (alErase w.circuits (meta i).coords) (meta i).coords = none
      rw [alLookup_alErase, if_pos rfl]
    · intro j _
      have hsymm := (reach_inv meta w hw).stinv.1
      constructor
      · intro hmem
        rw [show (⟨alErase w.circuits (meta i).coords, disconnectSt w.st i⟩ : World).st
            = disconnectSt w.st i from rfl, disconnectSt_mem_inputs] at hmem
        obtain ⟨hji, hin, hg⟩ := hmem
        exact hg ((hsymm i j).1 hin) rfl
      · intro hmem
        rw [show (⟨alErase w.circuits (meta i).coords, disconnectSt w.st i⟩ : World).st
            = disconnectSt w.st i from rfl, disconnectSt_mem_outputs] at hmem
        obtain ⟨hji, hout, hg⟩ := hmem
        exact hg ((hsymm j i).2 hout) rfl

/-- C9 witness: the three branches evaluated concretely — detaching the
unattached object 5 of `w3`, detaching object 1 of `w4` whose slot holds
object 0, and successfully detaching the torch 0 of `w3`. -/
theorem C9_witness :
    (disconnect meta3 w3 5 = .error .notAttached ∧
      applyOp meta3 w3 (.det 5) = w3) ∧
    (disconnect meta4 w4 1 = .error .mismatch ∧
      applyOp meta4 w4 (.det 1) = w4) ∧
    (∃ w2, disconnect meta3 w3 0 = .ok w2 ∧
      (w2.st 0).inputs = ∅ ∧ (w2.st 0).outputs = ∅ ∧
      alLookup w2.circuits (meta3 0).coords = none ∧
      ∀ j, Stored w2 j → 0 ∉ (w2.st j).inputs ∧ 0 ∉ (w2.st j).outputs) :=
  ⟨(C9_disconnect_behavior meta3 w3 5).1 (by decide),
   (C9_disconnect_behavior meta4 w4 1).2.1 0 (by decide) (by decide),
   (C9_disconnect_behavior meta3 w3 0).2.2 reach_w3 (by decide)⟩

theorem alLookup_mem_rangeFinset (al : AsicMap) (c : Coords) (j : Nat)
    (hl : alLookup al c = some j) : j ∈ alRangeFinset al := by
  induction al with
  | nil => simp [alLookup] at hl
  | cons kv rest ih =>
    obtain ⟨k, v⟩ := kv
    rw [alLookup_cons] at hl
    by_cases hc : c = k
    · rw [if_pos hc] at hl
      cases hl
      simp [alRangeFinset, alRange]
    · rw [if_neg hc] at hl
      have h2 := ih hl
      simp only [alRangeFinset, alRange] at h2 ⊢
      simp only [List.map_cons, List.toFinset_cons, Finset.mem_insert]
      exact Or.inr h2

theorem bfsEnq_lookup_none (meta : Nat → CMeta) (al : AsicMap)
    (wires : Finset Nat) (dacc : List Nat) (c : Coords)
    (hl : alLookup al c = none) : bfsEnq meta al wires dacc c = dacc := by
  unfold bfsEnq
  rw [hl]

theorem bfsEnq_lookup_some (meta : Nat → CMeta) (al : AsicMap)
    (wires : Finset Nat) (dacc : List Nat) (c : Coords) (j : Nat)
    (hl : alLookup al c = some j) :
    bfsEnq meta al wires dacc c =
      if kindName (meta j).kind = "wire" ∧ j ∉ wires then j :: dacc
      else dacc := by
  unfold bfsEnq
  rw [hl]

theorem mem_bfsEnq (meta : Nat → CMeta) (al : AsicMap) (wires : Finset Nat)
    (dacc : List Nat) (c : Coords) (x : Nat) :
    x ∈ bfsEnq meta al wires dacc c ↔
      x ∈ dacc ∨ (alLookup al c = some x ∧
        kindName (meta x).kind = "wire" ∧ x ∉ wires) := by
  cases hl : alLookup al c with
  | none =>
    rw [bfsEnq_lookup_none meta al wires dacc c hl]
    simp
  | some j =>
    rw [bfsEnq_lookup_some meta al wires dacc c j hl]
    by_cases hg : kindName (meta j).kind = "wire" ∧ j ∉ wires
    · rw [if_pos hg]
      constructor
      · intro hx
        rcases List.mem_cons.1 hx with hxj | hxa
        · subst hxj
          exact Or.inr ⟨rfl, hg.1, hg.2⟩
        · exact Or.inl hxa
      · rintro (hxa | ⟨hlx, _, _⟩)
        · exact List.mem_cons_of_mem j hxa
        · cases hlx
          exact List.mem_cons_self x dacc
    · rw [if_neg hg]
      constructor
      · exact Or.inl
      · rintro (hxa | ⟨hlx, hk, hw⟩)
        · exact hxa
        · cases hlx
          exact absurd ⟨hk, hw⟩ hg

theorem mem_foldl_bfsEnq (meta : Nat → CMeta) (al : AsicMap)
    (wires : Finset Nat) (cs : List Coords) :
    ∀ (acc : List Nat) (x : Nat),
      x ∈ cs.foldl (bfsEnq meta al wires) acc ↔
        x ∈ acc ∨ ∃ c ∈ cs, alLookup al c = some x ∧
          kindName (meta x).kind = "wire" ∧ x ∉ wires := by
  induction cs with
  | nil => intro acc x; simp
  | cons c rest ih =>
    intro acc x
    rw [List.foldl_cons, ih, mem_bfsEnq]
    constructor
    · rintro ((hacc | ⟨hl, hk, hw⟩) | ⟨c2, hc2, hl, hk, hw⟩)
      · exact Or.inl hacc
      · exact Or.inr ⟨c, List.mem_cons_self c rest, hl, hk, hw⟩
      · exact Or.inr ⟨c2, List.mem_cons_of_mem c hc2, hl, hk, hw⟩
    · rintro (hacc | ⟨c2, hc2, hl, hk, hw⟩)
      · exact Or.inl (Or.inl hacc)
      · rcases List.mem_cons.1 hc2 with hceq | hcr
        · subst hceq
          exact Or.inl (Or.inr ⟨hl, hk, hw⟩)
        · exact Or.inr ⟨c2, hcr, hl, hk, hw⟩

theorem countP_bfsEnq (meta : Nat → CMeta) (al : AsicMap)
    (wires : Finset Nat) (dacc : List Nat) (c : Coords) :
    (bfsEnq meta al wires dacc c).countP (fun j => decide (j ∈ wires))
      = dacc.countP (fun j => decide (j ∈ wires)) := by
  cases hl : alLookup al c with
  | none => rw [bfsEnq_lookup_none meta al wires dacc c hl]
  | some j =>
    rw [bfsEnq_lookup_some meta al wires dacc c j hl]
    by_cases hg : kindName (meta j).kind = "wire" ∧ j ∉ wires
    · rw [if_pos hg, List.countP_cons]
      simp [hg.2]
    · rw [if_neg hg]

theorem countP_foldl_bfsEnq (meta : Nat → CMeta) (al : AsicMap)
    (wires : Finset Nat) (cs : List Coords) :
    ∀ acc : List Nat,
      (cs.foldl (bfsEnq meta al wires) acc).countP (fun j => decide (j ∈ wires))
        = acc.countP (fun j => decide (j ∈ wires)) := by
  induction cs with
  | nil => intro acc; rfl
  | cons c rest ih =>
    intro acc
    rw [List.foldl_cons, ih, countP_bfsEnq]

theorem toFinset_foldl_bfsEnq_subset (meta : Nat → CMeta) (al : AsicMap)
    (wires : Finset Nat) (cs : List Coords) (acc : List Nat) :
    (cs.foldl (bfsEnq meta al wires) acc).toFinset ⊆
      acc.toFinset ∪ alRangeFinset al := by
  intro x hx
  rw [List.mem_toFinset, mem_foldl_bfsEnq] at hx
  rcases hx with h | ⟨c, _, hl, _, _⟩
  · exact Finset.mem_union_left _ (List.mem_toFinset.2 h)
  · exact Finset.mem_union_right _ (alLookup_mem_rangeFinset al c x hl)

theorem bfsM1_le (meta : Nat → CMeta) (al : AsicMap) (d : List Nat)
    (wires : Finset Nat) (h : d ≠ []) :
    bfsM1 al ((bfsNbrs meta (d.getLast h)).foldl (bfsEnq meta al wires)
        d.dropLast) wires ≤
      bfsM1 al d wires := by
  unfold bfsM1
  apply Finset.card_le_card
  intro x hx
  rw [Finset.mem_sdiff] at hx ⊢
  refine ⟨?_, hx.2⟩
  rcases Finset.mem_union.1 hx.1 with h1 | h1
  · rcases Finset.mem_union.1
        (toFinset_foldl_bfsEnq_subset meta al wires _ _ h1) with h2 | h2
    · refine Finset.mem_union_left _ ?_
      rw [List.mem_toFinset] at h2 ⊢
      exact (List.dropLast_sublist d).subset h2
    · exact Finset.mem_union_right _ h2
  · exact Finset.mem_union_right _ h1

theorem bfsM1_decrease (meta : Nat → CMeta) (al : AsicMap) (d : List Nat)
    (wires : Finset Nat) (h : d ≠ []) (hw : d.getLast h ∉ wires) :
    bfsM1 al ((bfsNbrs meta (d.getLast h)).foldl (bfsEnq meta al wires)
        d.dropLast) (insert (d.getLast h) wires) <
      bfsM1 al d wires := by
  unfold bfsM1
  have hwmem : d.getLast h ∈ (d.toFinset ∪ alRangeFinset al) \ wires := by
    rw [Finset.mem_sdiff]
    exact ⟨Finset.mem_union_left _ (List.mem_toFinset.2 (List.getLast_mem h)), hw⟩
  have hsub : (((bfsNbrs meta (d.getLast h)).foldl (bfsEnq meta al wires)
        d.dropLast).toFinset ∪ alRangeFinset al) \ insert (d.getLast h) wires ⊆
      ((d.toFinset ∪ alRangeFinset al) \ wires).erase (d.getLast h) := by
    intro x hx
    rw [Finset.mem_sdiff, Finset.mem_insert, not_or] at hx
    obtain ⟨hx1, hxw, hxs⟩ := hx
    rw [Finset.mem_erase, Finset.mem_sdiff]
    refine ⟨hxw, ?_, hxs⟩
    rcases Finset.mem_union.1 hx1 with h2 | h2
    · rcases Finset.mem_union.1
          (toFinset_foldl_bfsEnq_subset meta al wires _ _ h2) with h3 | h3
      · refine Finset.mem_union_left _ ?_
        rw [List.mem_toFinset] at h3 ⊢
        exact (List.dropLast_sublist d).subset h3
      · exact Finset.mem_union_right _ h3
    · exact Finset.mem_union_right _ h2
  exact lt_of_le_of_lt (Finset.card_le_card hsub)
    (Finset.card_erase_lt_of_mem hwmem)

theorem bfsM2_decrease (meta : Nat → CMeta) (al : AsicMap) (d : List Nat)
    (wires : Finset Nat) (h : d ≠ []) (hw : d.getLast h ∈ wires) :
    bfsM2 ((bfsNbrs meta (d.getLast h)).foldl (bfsEnq meta al wires)
        d.dropLast) wires <
      bfsM2 d wires := by
  unfold bfsM2
  rw [countP_foldl_bfsEnq]
  conv_rhs => rw [← List.dropLast_append_getLast h]
  rw [List.countP_append, List.countP_cons, List.countP_nil]
  simp [hw]

/-- The `while d:` loop of `find_wires`: pop on the right, scan the popped
wire's neighbors pushing fresh wires on the left, then add the popped wire
to the collected set; return the collected set when the deque drains.
Termination: popping an uncollected wire shrinks the set of
stored-or-queued uncollected ids, while popping an already-collected entry
pushes only uncollected ids and so shrinks the count of collected queue
entries. -/
def bfsLoop (meta : Nat → CMeta) (al : AsicMap) (d : List Nat)
    (wires : Finset Nat) : Finset Nat :=
  if h : d = [] then wires
  else
    bfsLoop meta al
      ((bfsNbrs meta (d.getLast h)).foldl (bfsEnq meta al wires) d.dropLast)
      (insert (d.getLast h) wires)
termination_by (bfsM1 al d wires, bfsM2 d wires)
decreasing_by
  by_cases hw : d.getLast h ∈ wires
  · have heqw : insert (d.getLast h) wires = wires := Finset.insert_eq_self.2 hw
    rw [heqw]
    rcases lt_or_eq_of_le (bfsM1_le meta al d wires h) with hlt | heq1
    · exact Prod.Lex.left _ _ hlt
    · rw [heq1]
      exact Prod.Lex.right _ (bfsM2_decrease meta al d wires h hw)
  · exact Prod.Lex.left _ _ (bfsM1_decrease meta al d wires h hw)

/-- `Asic.find_wires`: `none` models the Python `return None` taken when
the coordinate is absent or does not hold a wire; otherwise the
breadth-first search runs from the wire found there. -/
def find_wires (meta : Nat → CMeta) (al : AsicMap) (x y z : Int) :
    Option (Finset Nat) :=
  match alLookup al (x, y, z) with
  | none => none
  | some root =>
    if kindName (meta root).kind = "wire" then
      some (bfsLoop meta al [root] {root})
    else none

/-- Stored wire circuits: found in the dictionary with class name `"wire"`. -/
def StoredWire (meta : Nat → CMeta) (al : AsicMap) (y : Nat) : Prop :=
  (∃ c, alLookup al c = some y) ∧ kindName (meta y).kind = "wire"

/-- The in-flight closure invariant of the search loop: every collected
wire either still waits in the deque or already has all its stored wire
neighbors collected or queued. -/
def ClosedPending (meta : Nat → CMeta) (al : AsicMap) (d : List Nat)
    (wires : Finset Nat) : Prop :=
  ∀ x ∈ wires, x ∈ d ∨
    ∀ c ∈ bfsNbrs meta x, ∀ y, alLookup al c = some y →
      kindName (meta y).kind = "wire" → y ∈ wires ∨ y ∈ d

theorem bfsLoop_nil (meta : Nat → CMeta) (al : AsicMap) (wires : Finset Nat) :
    bfsLoop meta al [] wires = wires := by
  rw [bfsLoop]
  simp

theorem bfsLoop_cons (meta : Nat → CMeta) (al : AsicMap) (d : List Nat)
    (wires : Finset Nat) (h : d ≠ []) :
    bfsLoop meta al d wires =
      bfsLoop meta al
        ((bfsNbrs meta (d.getLast h)).foldl (bfsEnq meta al wires) d.dropLast)
        (insert (d.getLast h) wires) := by
  conv_lhs => rw [bfsLoop]
  rw [dif_neg h]

theorem bfsLoop_subset (meta : Nat → CMeta) (al : AsicMap) :
    ∀ (d : List Nat) (wires : Finset Nat), wires ⊆ bfsLoop meta al d wires := by
  intro d wires
  induction d, wires using bfsLoop.induct meta al with
  | case1 wires => rw [bfsLoop_nil]
  | case2 d wires h ih =>
    rw [bfsLoop_cons meta al d wires h]
    exact fun x hx => ih (Finset.mem_insert_of_mem hx)

theorem bfsLoop_mem (meta : Nat → CMeta) (al : AsicMap) :
    ∀ (d : List Nat) (wires : Finset Nat),
      (∀ y ∈ d, StoredWire meta al y) →
      ∀ x ∈ bfsLoop meta al d wires, x ∈ wires ∨ StoredWire meta al x := by
  intro d wires
  induction d, wires using bfsLoop.induct meta al with
  | case1 wires =>
    intro _ x hx
    rw [bfsLoop_nil] at hx
    exact Or.inl hx
  | case2 d wires h ih =>
    intro hd x hx
    rw [bfsLoop_cons meta al d wires h] at hx
    have hd2 : ∀ y ∈ (bfsNbrs meta (d.getLast h)).foldl
        (bfsEnq meta al wires) d.dropLast, StoredWire meta al y := by
      intro y hy
      rcases (mem_foldl_bfsEnq meta al wires _ _ y).1 hy with hy2 | ⟨c, _, hl, hk, _⟩
      · exact hd y ((List.dropLast_sublist d).subset hy2)
      · exact ⟨⟨c, hl⟩, hk⟩
    rcases ih hd2 x hx with hx2 | hx2
    · rcases Finset.mem_insert.1 hx2 with hx3 | hx3
      · subst hx3
        exact Or.inr (hd _ (List.getLast_mem h))
      · exact Or.inl hx3
    · exact Or.inr hx2

theorem bfsLoop_reach (meta : Nat → CMeta) (al : AsicMap) (root : Nat) :
    ∀ (d : List Nat) (wires : Finset Nat),
      (∀ y ∈ d, WireReach meta al root y) →
      (∀ y ∈ wires, WireReach meta al root y) →
      ∀ x ∈ bfsLoop meta al d wires, WireReach meta al root x := by
  intro d wires
  induction d, wires using bfsLoop.induct meta al with
  | case1 wires =>
    intro _ hwires x hx
    rw [bfsLoop_nil] at hx
    exact hwires x hx
  | case2 d wires h ih =>
    intro hd hwires x hx
    rw [bfsLoop_cons meta al d wires h] at hx
    refine ih ?_ ?_ x hx
    · intro y hy
      rcases (mem_foldl_bfsEnq meta al wires _ _ y).1 hy with hy2 | ⟨c, hc, hl, hk, _⟩
      · exact hd y ((List.dropLast_sublist d).subset hy2)
      · exact .step (d.getLast h) y c (hd _ (List.getLast_mem h)) hc hl hk
    · intro y hy
      rcases Finset.mem_insert.1 hy with hy2 | hy2
      · subst hy2
        exact hd _ (List.getLast_mem h)
      · exact hwires y hy2

theorem bfsLoop_closed (meta : Nat → CMeta) (al : AsicMap) :
    ∀ (d : List Nat) (wires : Finset Nat),
      ClosedPending meta al d wires →
      ∀ x ∈ bfsLoop meta al d wires, ∀ c ∈ bfsNbrs meta x, ∀ y,
        alLookup al c = some y → kindName (meta y).kind = "wire" →
        y ∈ bfsLoop meta al d wires := by
  intro d wires
  induction d, wires using bfsLoop.induct meta al with
  | case1 wires =>
    intro hcp x hx c hc y hl hk
    rw [bfsLoop_nil] at hx ⊢
    rcases hcp x hx with hx2 | hcov
    · cases hx2
    · rcases hcov c hc y hl hk with hy | hy
      · exact hy
      · cases hy
  | case2 d wires h ih =>
    intro hcp x hx c hc y hl hk
    rw [bfsLoop_cons meta al d wires h] at hx ⊢
    refine ih ?_ x hx c hc y hl hk
    intro x2 hx2
    by_cases hxd : x2 ∈ (bfsNbrs meta (d.getLast h)).foldl
        (bfsEnq meta al wires) d.dropLast
    · exact Or.inl hxd
    · right
      intro c2 hc2 y2 hl2 hk2
      rcases Finset.mem_insert.1 hx2 with hx3 | hx3
      · -- x2 is the freshly popped wire: its uncollected wire neighbors
        -- were all enqueued in this very step
        subst hx3
        by_cases hy2 : y2 ∈ wires
        · exact Or.inl (Finset.mem_insert_of_mem hy2)
        · refine Or.inr ((mem_foldl_bfsEnq meta al wires _ _ y2).2 ?_)
          exact Or.inr ⟨c2, hc2, hl2, hk2, hy2⟩
      · -- an older collected wire: use the old invariant
        rcases hcp x2 hx3 with hx4 | hcov
        · -- it was still queued: it is the popped entry (just handled) or
          -- sits in the shrunk deque (contradicting hxd)
          have hx4b : x2 ∈ d.dropLast ++ [d.getLast h] := by
            rw [List.dropLast_append_getLast h]
            exact hx4
          rcases List.mem_append.1 hx4b with hx5 | hx5
          · exact absurd ((mem_foldl_bfsEnq meta al wires _ _ x2).2 (Or.inl hx5)) hxd
          · have hx6 : x2 = d.getLast h := by simpa using hx5
            subst hx6
            by_cases hy2 : y2 ∈ wires
            · exact Or.inl (Finset.mem_insert_of_mem hy2)
            · refine Or.inr ((mem_foldl_bfsEnq meta al wires _ _ y2).2 ?_)
              exact Or.inr ⟨c2, hc2, hl2, hk2, hy2⟩
        · rcases hcov c2 hc2 y2 hl2 hk2 with hy | hy
          · exact Or.inl (Finset.mem_insert_of_mem hy)
          · have hyb : y2 ∈ d.dropLast ++ [d.getLast h] := by
              rw [List.dropLast_append_getLast h]
              exact hy
            rcases List.mem_append.1 hyb with hy5 | hy5
            · exact Or.inr ((mem_foldl_bfsEnq meta al wires _ _ y2).2 (Or.inl hy5))
            · have hy6 : y2 = d.getLast h := by simpa using hy5
              subst hy6
              exact Or.inl (Finset.mem_insert_self _ _)

theorem find_wires_lookup_none (meta : Nat → CMeta) (al : AsicMap)
    (x y z : Int) (hl : alLookup al (x, y, z) = none) :
    find_wires meta al x y z = none := by
  unfold find_wires
  rw [hl]

theorem find_wires_lookup_some (meta : Nat → CMeta) (al : AsicMap)
    (x y z : Int) (root : Nat) (hl : alLookup al (x, y, z) = some root) :
    find_wires meta al x y z =
      if kindName (meta root).kind = "wire" then
        some (bfsLoop meta al [root] {root})
      else none := by
  unfold find_wires
  rw [hl]

/-- C5 counterexample: on the empty Asic the coordinate is absent and
`find_wires` returns `None`, which is not the empty set the claim
promises. -/
theorem C5_counterexample :
    find_wires metaW ([] : AsicMap) 0 0 0 = none ∧
      (none : Option (Finset Nat)) ≠ some (∅ : Finset Nat) :=
  ⟨rfl, by decide⟩

/-- C5 (amended): when the coordinate holds a Wire, `find_wires` returns a
set of Wires that contains the seed, consists of wires reachable from the
seed through horizontal wire–wire adjacency, and is closed under that
adjacency; when the coordinate is absent or holds a non-Wire circuit the
result is `None` (not the empty set). -/
theorem C5_find_wires (meta : Nat → CMeta) (al : AsicMap) (x y z : Int) :
    (alLookup al (x, y, z) = none → find_wires meta al x y z = none) ∧
    (∀ root, alLookup al (x, y, z) = some root →
      kindName (meta root).kind ≠ "wire" → find_wires meta al x y z = none) ∧
    (∀ root, alLookup al (x, y, z) = some root →
      kindName (meta root).kind = "wire" →
      ∃ S, find_wires meta al x y z = some S ∧ root ∈ S ∧
        (∀ w2 ∈ S, kindName (meta w2).kind = "wire" ∧
          WireReach meta al root w2) ∧
        (∀ w2 ∈ S, ∀ c ∈ bfsNbrs meta w2, ∀ y2, alLookup al c = some y2 →
          kindName (meta y2).kind = "wire" → y2 ∈ S)) := by
  refine ⟨fun hl => find_wires_lookup_none meta al x y z hl, ?_, ?_⟩
  · intro root hl hk
    rw [find_wires_lookup_some meta al x y z root hl, if_neg hk]
  · intro root hl hk
    rw [find_wires_lookup_some meta al x y z root hl, if_pos hk]
    have hd : ∀ y2 ∈ [root], StoredWire meta al y2 := by
      intro y2 hy2
      have heq : y2 = root := by simpa using hy2
      subst heq
      exact ⟨⟨(x, y, z), hl⟩, hk⟩
    refine ⟨_, rfl, ?_, ?_, ?_⟩
    · exact bfsLoop_subset meta al [root] {root} (Finset.mem_singleton_self root)
    · intro w2 hw2
      constructor
      · rcases bfsLoop_mem meta al [root] {root} hd w2 hw2 with h1 | h1
        · rw [Finset.mem_singleton.1 h1]
          exact hk
        · exact h1.2
      · refine bfsLoop_reach meta al root [root] {root} ?_ ?_ w2 hw2
        · intro y2 hy2
          have heq : y2 = root := by simpa using hy2
          subst heq
          exact .refl
        · intro y2 hy2
          rw [Finset.mem_singleton.1 hy2]
          exact .refl
    · intro w2 hw2 c hc y2 hl2 hk2
      refine bfsLoop_closed meta al [root] {root} ?_ w2 hw2 c hc y2 hl2 hk2
      intro x2 hx2
      rw [Finset.mem_singleton.1 hx2]
      exact Or.inl (List.mem_cons_self root [])

/-- C5 witness: the three branches evaluated on the concrete Asic `alW` —
an absent coordinate, the plain block at `(9,9,9)`, and the wire seed at
the origin. -/
theorem C5_witness :
    (find_wires metaW alW 5 0 0 = none) ∧
    (find_wires metaW alW 9 9 9 = none) ∧
    (∃ S, find_wires metaW alW 0 0 0 = some S ∧ 0 ∈ S ∧
      (∀ w2 ∈ S, kindName (metaW w2).kind = "wire" ∧
        WireReach metaW alW 0 w2) ∧
      (∀ w2 ∈ S, ∀ c ∈ bfsNbrs metaW w2, ∀ y2, alLookup alW c = some y2 →
        kindName (metaW y2).kind = "wire" → y2 ∈ S)) :=
  ⟨(C5_find_wires metaW alW 5 0 0).1 (by decide),
   (C5_find_wires metaW alW 9 9 9).2.1 2 (by decide) (by decide),
   (C5_find_wires metaW alW 0 0 0).2.2 0 (by decide) (by decide)⟩

/-- C10: for every Asic (the dictionary is a finite association list by
construction) the `while` loop of `find_wires`, modelled as the iterated
step function on (deque, collected) pairs, always drains its deque after
finitely many iterations and ends holding exactly the collected set that
the recursive model computes — even though a wire can be enqueued once per
adjacent edge before it is first popped and recorded. -/
theorem C10_find_wires_terminates (meta : Nat → CMeta) (al : AsicMap)
    (s : List Nat × Finset Nat) :
    ∃ n, ((bfsStep meta al)^[n] s).1 = [] ∧
      ((bfsStep meta al)^[n] s).2 = bfsLoop meta al s.1 s.2 := by
  obtain ⟨d, wires⟩ := s
  induction d, wires using bfsLoop.induct meta al with
  | case1 wires => exact ⟨0, rfl, (bfsLoop_nil meta al wires).symm⟩
  | case2 d wires h ih =>
    obtain ⟨n, h1, h2⟩ := ih
    have hstep : bfsStep meta al (d, wires) =
        ((bfsNbrs meta (d.getLast h)).foldl (bfsEnq meta al wires) d.dropLast,
          insert (d.getLast h) wires) := by
      unfold bfsStep
      rw [dif_neg h]
    refine ⟨n + 1, ?_, ?_⟩
    · rw [Function.iterate_succ_apply, hstep]
      exact h1
    · rw [Function.iterate_succ_apply, hstep]
      rw [show (d, wires).1 = d from rfl, show (d, wires).2 = wires from rfl,
        bfsLoop_cons meta al d wires h]
      exact h2

end Redstone
